import Mathlib

set_option autoImplicit false
set_option linter.unnecessarySeqFocus false

/-!
Shallow embedding of the `matrix-terminal` repository core:
`src/color.rs` (`Color`, `HslColor` and the RGB↔HSL conversions) and
`src/main.rs` (`Glyph`, `Column`, `MatrixWaterfall` and their stepping
logic).  Rust `f64`/`f32` arithmetic is modelled over `ℚ`; machine
integers are modelled over `ℕ` (all channel values the program builds
stay in `[0,255]`).  The shared random generator (`rand::Rng`) is
modelled as an explicit state holding one stream per draw type:
`gen::<f32>()` pops a rational from `floats` (a uniform value in
`[0,1)`), and `gen_range(0..n)` pops a natural from `nats` and reduces
it modulo `n`, matching that method's contract of returning a value in
`[0,n)`.  Fallible operations (`Vec` indexed writes, `.unwrap()`) are
modelled in `Option`, with `none` standing for a Rust panic.
-/

/-- `Color` from `src/color.rs`: four 8-bit channels `r`, `g`, `b`, `a`. -/
structure Color where
  r : ℕ
  g : ℕ
  b : ℕ
  a : ℕ
deriving DecidableEq, Repr

/-- `HslColor` from `src/color.rs`; the fields are `f64` in the source,
modelled as `ℚ`. -/
structure HslColor where
  h : ℚ
  s : ℚ
  l : ℚ
deriving DecidableEq, Repr

/-- `HslColor::new`. -/
def HslColor.new (h s l : ℚ) : HslColor := ⟨h, s, l⟩

namespace Color

/-- `Color::from_rgba(r, g, b, a)`. -/
def from_rgba (r g b a : ℕ) : Color := ⟨r, g, b, a⟩

/-- `Color::from_rgb`.  Faithful to the source, whose parameter list is
`(r: u8, b: u8, g: u8)` — the second positional argument is bound to the
name `b` and the third to `g` — and whose body is
`Self::from_rgba(r, g, b, 255)`. -/
def from_rgb (r b g : ℕ) : Color := from_rgba r g b 255

/-- `Color::as_hsl`: RGB → HSL.  The source normalises the channels to
`[0,1]`, takes max/min, returns early in the achromatic case, and
otherwise computes saturation and hue, where `h` starts out as
`(vmax + vmin) / 2.0` and is then rewritten by up to three sequential
`if` statements (in source order `vmax == r`, `vmax == g`,
`vmax == b`). -/
def as_hsl (c : Color) : HslColor :=
  let r : ℚ := (c.r : ℚ) / 255
  let g : ℚ := (c.g : ℚ) / 255
  let b : ℚ := (c.b : ℚ) / 255
  let vmax := max r (max g b)
  let vmin := min r (min g b)
  let l := (vmax + vmin) / 2
  if vmax = vmin then
    HslColor.new 0 0 l       -- achromatic early return: note l is NOT scaled
  else
    let d := vmax - vmin
    let s := if l > 1/2 then d / (2 - vmax - vmin) else d / (vmax + vmin)
    let h0 := (vmax + vmin) / 2
    let h1 := if vmax = r then (if g < b then (g - b) / d + 6 else (g - b) / d) else h0
    let h2 := if vmax = g then (b - r) / d + 2 else h1
    let h3 := if vmax = b then (r - g) / d + 4 else h2
    let h := h3 / 6
    HslColor.new (h * 360) (s * 100) (l * 100)

end Color

/-- Rust `f64::round`: round half away from zero. -/
def roundHalfAway (x : ℚ) : ℤ :=
  if 0 ≤ x then ⌊x + 1/2⌋ else -⌊-x + 1/2⌋

/-- Rust `as u8` applied to a rounded `f64`: the float-to-integer cast
saturates at the bounds of the target type. -/
def roundToU8 (x : ℚ) : ℕ :=
  (min 255 (max 0 (roundHalfAway x))).toNat

/-- The helper `hue_to_rgb(p, q, t)` nested in `impl From<HslColor> for
Color`: wrap `t` into `[0,1]`, then pick among four piecewise segments. -/
def hue_to_rgb (p q t0 : ℚ) : ℚ :=
  let t1 := if t0 < 0 then t0 + 1 else t0
  let t := if t1 > 1 then t1 - 1 else t1
  if t < 1/6 then p + (q - p) * 6 * t
  else if t < 1/2 then q
  else if t < 2/3 then p + (q - p) * (2/3 - t) * 6
  else p

namespace Color

/-- `impl From<HslColor> for Color` (HSL → RGB).  Normalises `h`, `s`,
`l`; achromatic when `s == 0`; otherwise computes `p`, `q` and the three
channels via `hue_to_rgb`; finally calls `Color::from_rgb(r, g, b)`
POSITIONALLY with the computed channels (see `from_rgb`'s parameter
order). -/
def fromHsl (v : HslColor) : Color :=
  let h := v.h / 360
  let s := v.s / 100
  let l := v.l / 100
  if s = 0 then
    from_rgb (roundToU8 (l * 255)) (roundToU8 (l * 255)) (roundToU8 (l * 255))
  else
    let q := if l < 1/2 then l * (1 + s) else l + s - l * s
    let p := 2 * l - q
    let r := hue_to_rgb p q (h + 1/3)
    let g := hue_to_rgb p q h
    let b := hue_to_rgb p q (h - 1/3)
    from_rgb (roundToU8 (r * 255)) (roundToU8 (g * 255)) (roundToU8 (b * 255))

end Color

/-- `Glyph` from `src/main.rs`: one renderable cell. -/
structure Glyph where
  character : Char
  color : Color
deriving DecidableEq, Repr

namespace Glyph

/-- `Glyph::new`. -/
def new (character : Char) (color : Color) : Glyph := ⟨character, color⟩

/-- `Glyph::fade_color`: convert the color to HSL, multiply saturation
and lightness by 0.8, convert back (via `impl From<HslColor> for
Color`), keep the character. -/
def fade_color (g : Glyph) : Glyph :=
  let hsl := g.color.as_hsl
  ⟨g.character, Color.fromHsl (HslColor.new hsl.h (hsl.s * (4/5)) (hsl.l * (4/5)))⟩

/-- `Glyph::empty`: space character, fully transparent black. -/
def empty : Glyph := ⟨' ', Color.from_rgba 0 0 0 0⟩

end Glyph

/-- The fixed alphabet string of `Glyph::new_random`. -/
def characters : String := "ﾊﾐﾋｰｳｼﾅﾓﾆｻﾜﾂｵﾘｱﾎﾃﾏｹﾒｴｶｷﾑﾕﾗｾﾈｽﾀﾇﾍｦｲｸｺｿﾁﾄﾉﾌﾔﾖﾙﾚﾛﾝ012345789Z:.\"=*+-<>¦╌ç"

/-- Model of the `rand::Rng` generator state threaded through the step
functions: one stream per draw type (see the header comment).  The
streams are conceptually infinite; an exhausted list defaults to `0`. -/
structure Rng where
  floats : List ℚ
  nats : List ℕ
deriving DecidableEq, Repr

namespace Rng

/-- `rand.gen::<f32>()`: one uniform draw in `[0,1)`. -/
def genFloat (r : Rng) : ℚ × Rng := (r.floats.headD 0, ⟨r.floats.tail, r.nats⟩)

/-- `rand.gen_range(0..n)`: one uniform draw in `[0,n)`, modelled as the
next natural of the stream reduced modulo `n` (the method's contract
guarantees the result lies in the requested range). -/
def genRange (r : Rng) (n : ℕ) : ℕ × Rng := (r.nats.headD 0 % n, ⟨r.floats, r.nats.tail⟩)

end Rng

namespace Glyph

/-- `Glyph::new_random`: draw `gen_range(0..characters.chars().count())`
and take that character of the alphabet; `.nth(i).unwrap()` is modelled
in `Option` (`none` = panic). -/
def new_random (r : Rng) (color : Color) : Option (Glyph × Rng) :=
  let n := characters.toList.length
  let ir := r.genRange n
  match characters.toList.get? ir.1 with
  | some c => some (⟨c, color⟩, ir.2)
  | none => none

end Glyph

/-- `Column` from `src/main.rs`. -/
structure Column where
  height : ℕ            -- u16 in the source
  base_color : Color
  glyphs : List Glyph
  active_index : ℕ      -- usize in the source
deriving DecidableEq, Repr

namespace Column

/-- `Column::new`: `height` empty glyphs, `active_index` 0. -/
def new (height : ℕ) (base_color : Color) : Column :=
  ⟨height, base_color, List.replicate height Glyph.empty, 0⟩

/-- `Column::empty`. -/
def empty (height : ℕ) : Column :=
  ⟨height, Color.from_rgba 0 0 0 255, List.replicate height Glyph.empty, 0⟩

/-- The body of `Column::step` past the gate: fade every glyph, write a
fresh random glyph over the cell at `active_index` (an indexed `Vec`
write: `none` models the out-of-bounds panic), then advance
`active_index` by one, resetting to 0 once it reaches `height`. -/
def proceed (c : Column) (r : Rng) : Option (Column × Rng) := do
  let faded := c.glyphs.map Glyph.fade_color
  let (gl, r1) ← Glyph.new_random r c.base_color
  if c.active_index < faded.length then
    let glyphs := faded.set c.active_index gl
    let ai1 := c.active_index + 1
    let ai2 := if ai1 ≥ c.height then 0 else ai1
    some (⟨c.height, c.base_color, glyphs, ai2⟩, r1)
  else none

/-- `Column::step`: the gate draws one `f32` only when
`active_index == 0` (Rust `&&` short-circuits) and returns with the
column untouched when that draw exceeds 0.1; otherwise the tick
proceeds. -/
def step (c : Column) (r : Rng) : Option (Column × Rng) :=
  if c.active_index = 0 then
    let xr := r.genFloat
    if xr.1 > 1/10 then some (c, xr.2) else c.proceed xr.2
  else c.proceed r

/-- A finite sequence of `Column::step` calls threading the generator. -/
def runN (c : Column) (r : Rng) : ℕ → Option (Column × Rng)
  | 0 => some (c, r)
  | n + 1 => do
    let (c1, r1) ← c.step r
    runN c1 r1 n

end Column

/-- `MatrixWaterfall` from `src/main.rs`. -/
structure MatrixWaterfall where
  height : ℕ
  width : ℕ
  base_color : Color
  columns : List Column
deriving DecidableEq, Repr

namespace MatrixWaterfall

/-- `MatrixWaterfall::new(w, h, col)`: `w` identical clones of
`Column::new(h, col)`. -/
def new (w h : ℕ) (col : Color) : MatrixWaterfall :=
  ⟨h, w, col, List.replicate w (Column.new h col)⟩

/-- The loop body of `MatrixWaterfall::step`: step the columns left to
right, threading the one shared generator through the chain. -/
def stepColumns : List Column → Rng → Option (List Column × Rng)
  | [], r => some ([], r)
  | c :: cs, r => do
    let (c1, r1) ← c.step r
    let (cs1, r2) ← stepColumns cs r1
    some (c1 :: cs1, r2)

/-- `MatrixWaterfall::step`. -/
def step (w : MatrixWaterfall) (r : Rng) : Option (MatrixWaterfall × Rng) := do
  let (cols, r1) ← stepColumns w.columns r
  some (⟨w.height, w.width, w.base_color, cols⟩, r1)

/-- A finite sequence of `MatrixWaterfall::step` calls threading the
generator. -/
def runN (w : MatrixWaterfall) (r : Rng) : ℕ → Option (MatrixWaterfall × Rng)
  | 0 => some (w, r)
  | n + 1 => do
    let (w1, r1) ← step w r
    runN w1 r1 n

end MatrixWaterfall

/-- The base color hard-coded in `main`: `Color::from_rgba(0, 255, 43, 255)`. -/
def mainBaseColor : Color := Color.from_rgba 0 255 43 255

/-! ## Helper lemmas shared between the claims -/

/-- Every color produced by the HSL→RGB conversion has alpha 255
(`from_rgb` hard-codes it). -/
theorem Color.fromHsl_a (v : HslColor) : (Color.fromHsl v).a = 255 := by
  simp only [Color.fromHsl]
  split <;> rfl

theorem Glyph.fade_color_character (g : Glyph) :
    (Glyph.fade_color g).character = g.character := rfl

theorem Glyph.fade_color_a (g : Glyph) : (Glyph.fade_color g).color.a = 255 :=
  Color.fromHsl_a _

theorem characters_length_pos : 0 < characters.toList.length := by decide

/-- `Glyph::new_random` always succeeds, spawns a character of the fixed
alphabet, paints it with the given color, and consumes exactly one
`gen_range` draw. -/
theorem Glyph.new_random_spec (r : Rng) (color : Color) :
    ∃ (g : Glyph), Glyph.new_random r color = some (g, ⟨r.floats, r.nats.tail⟩)
      ∧ g.character ∈ characters.toList ∧ g.color = color := by
  have hpos := characters_length_pos
  have hi : (r.nats.headD 0) % characters.toList.length < characters.toList.length :=
    Nat.mod_lt _ hpos
  refine ⟨⟨characters.toList.get ⟨_, hi⟩, color⟩, ?_, List.get_mem _ _ _, rfl⟩
  unfold Glyph.new_random Rng.genRange
  simp only [List.get?_eq_get hi]

/-- Arithmetic of the wraparound: advancing then resetting at `height`
is addition modulo `height` as long as the index was in range. -/
theorem wrap_eq_mod (ai h : ℕ) (hlt : ai < h) :
    (if ai + 1 ≥ h then 0 else ai + 1) = (ai + 1) % h := by
  rcases Nat.lt_or_ge (ai + 1) h with hlt2 | hge
  · rw [if_neg (by omega), Nat.mod_eq_of_lt hlt2]
  · have heq : ai + 1 = h := by omega
    rw [if_pos hge, heq, Nat.mod_self]

/-- Full characterisation of a successful `Column::proceed` when the
active index is in bounds. -/
theorem Column.proceed_spec (c : Column) (r : Rng)
    (hai : c.active_index < c.glyphs.length) :
    ∃ (g : Glyph),
      c.proceed r = some (⟨c.height, c.base_color,
          (c.glyphs.map Glyph.fade_color).set c.active_index g,
          if c.active_index + 1 ≥ c.height then 0 else c.active_index + 1⟩,
          ⟨r.floats, r.nats.tail⟩)
      ∧ g.character ∈ characters.toList ∧ g.color = c.base_color := by
  obtain ⟨g, hnr, hmem, hcol⟩ := Glyph.new_random_spec r c.base_color
  refine ⟨g, ?_, hmem, hcol⟩
  unfold Column.proceed
  rw [hnr]
  simp [List.length_map, hai]

/-- `Column::proceed` with an out-of-range `active_index` is the
modelled `Vec` indexing panic. -/
theorem Column.proceed_oob (c : Column) (r : Rng)
    (hai : ¬ c.active_index < c.glyphs.length) : c.proceed r = none := by
  obtain ⟨g, hnr, -, -⟩ := Glyph.new_random_spec r c.base_color
  unfold Column.proceed
  rw [hnr]
  simp [hai]

/-- A successful `Column::proceed` advances `active_index` by one and
wraps it at `height`. -/
theorem Column.proceed_active_index (c : Column) (r : Rng) (c' : Column) (r' : Rng)
    (h : c.proceed r = some (c', r')) :
    c'.active_index = if c.active_index + 1 ≥ c.height then 0 else c.active_index + 1 := by
  by_cases hai : c.active_index < c.glyphs.length
  · obtain ⟨g, hp, -, -⟩ := Column.proceed_spec c r hai
    rw [hp] at h
    simp only [Option.some.injEq, Prod.mk.injEq] at h
    rw [← h.1]
  · rw [Column.proceed_oob c r hai] at h
    exact absurd h (by simp)

/-- `Column::proceed` never consumes a float draw (only the gate does). -/
theorem Column.proceed_floats (c : Column) (r : Rng) (c' : Column) (r' : Rng)
    (h : c.proceed r = some (c', r')) : r'.floats = r.floats := by
  by_cases hai : c.active_index < c.glyphs.length
  · obtain ⟨g, hp, -, -⟩ := Column.proceed_spec c r hai
    rw [hp] at h
    simp only [Option.some.injEq, Prod.mk.injEq] at h
    rw [← h.2]
  · rw [Column.proceed_oob c r hai] at h
    exact absurd h (by simp)

/-- `Column::step` with the gate blocking: the column is returned
untouched (only the float draw is consumed). -/
theorem Column.step_gate_blocks (c : Column) (r : Rng) (h0 : c.active_index = 0)
    (hx : (r.genFloat).1 > 1/10) : c.step r = some (c, (r.genFloat).2) := by
  unfold Column.step
  rw [if_pos h0, if_pos hx]

/-- `Column::step` with the gate passing: the tick proceeds on the
generator left after the gate draw. -/
theorem Column.step_gate_passes (c : Column) (r : Rng) (h0 : c.active_index = 0)
    (hx : ¬ (r.genFloat).1 > 1/10) : c.step r = c.proceed (r.genFloat).2 := by
  unfold Column.step
  rw [if_pos h0, if_neg hx]

/-- `Column::step` away from the top: no gate, the tick proceeds on the
untouched generator. -/
theorem Column.step_no_gate (c : Column) (r : Rng) (h0 : c.active_index ≠ 0) :
    c.step r = c.proceed r := by
  unfold Column.step
  rw [if_neg h0]

/-- The well-formedness invariant of a `Column` (§3 of the spec):
exactly `height` glyphs and an in-range `active_index`. -/
def Column.Inv (c : Column) : Prop :=
  c.glyphs.length = c.height ∧ c.active_index < c.height

instance (c : Column) : Decidable c.Inv := by
  unfold Column.Inv
  infer_instance

theorem Column.new_inv (height : ℕ) (col : Color) (hpos : 0 < height) :
    (Column.new height col).Inv := by
  constructor
  · simp [Column.new]
  · simpa [Column.new] using hpos

/-- One `Column::step` from a well-formed column never faults and
preserves the invariant, the height and the base color. -/
theorem Column.step_inv (c : Column) (r : Rng) (hc : c.Inv) :
    ∃ (c' : Column) (r' : Rng), c.step r = some (c', r') ∧ c'.Inv
      ∧ c'.height = c.height ∧ c'.base_color = c.base_color := by
  have hai : c.active_index < c.glyphs.length := hc.1 ▸ hc.2
  have hpos : 0 < c.height := Nat.lt_of_le_of_lt (Nat.zero_le _) hc.2
  have hproceed : ∀ r0 : Rng, ∃ (c' : Column) (r' : Rng),
      c.proceed r0 = some (c', r') ∧ c'.Inv
        ∧ c'.height = c.height ∧ c'.base_color = c.base_color := by
    intro r0
    obtain ⟨g, hp, -, -⟩ := Column.proceed_spec c r0 hai
    refine ⟨_, _, hp, ⟨?_, ?_⟩, rfl, rfl⟩
    · simp [List.length_set, List.length_map, hc.1]
    · by_cases hend : c.active_index + 1 ≥ c.height
      · simpa [hend] using hpos
      · simpa [hend] using Nat.lt_of_not_le hend
  by_cases h0 : c.active_index = 0
  · by_cases hx : (r.genFloat).1 > 1/10
    · exact ⟨c, (r.genFloat).2, Column.step_gate_blocks c r h0 hx, hc, rfl, rfl⟩
    · obtain ⟨c', r', hp, hinv, hh, hb⟩ := hproceed (r.genFloat).2
      exact ⟨c', r', (Column.step_gate_passes c r h0 hx).trans hp, hinv, hh, hb⟩
  · obtain ⟨c', r', hp, hinv, hh, hb⟩ := hproceed r
    exact ⟨c', r', (Column.step_no_gate c r h0).trans hp, hinv, hh, hb⟩

/-- Any finite number of `Column::step` calls from a well-formed column
never faults and preserves the invariant and the height. -/
theorem Column.runN_inv (n : ℕ) : ∀ (c : Column) (r : Rng), c.Inv →
    ∃ (c' : Column) (r' : Rng), Column.runN c r n = some (c', r')
      ∧ c'.Inv ∧ c'.height = c.height := by
  induction n with
  | zero => exact fun c r hc => ⟨c, r, rfl, hc, rfl⟩
  | succ n ih =>
    intro c r hc
    obtain ⟨c1, r1, hs, h1, hh1, -⟩ := Column.step_inv c r hc
    obtain ⟨c2, r2, hrun, h2, hh2⟩ := ih c1 r1 h1
    exact ⟨c2, r2, by simp [Column.runN, hs, hrun], h2, hh2.trans hh1⟩

/-- Stepping a list of well-formed columns left to right never faults
and keeps every column well-formed. -/
theorem MatrixWaterfall.stepColumns_inv :
    ∀ (cs : List Column) (r : Rng), (∀ c ∈ cs, c.Inv) →
    ∃ (cs' : List Column) (r' : Rng),
      MatrixWaterfall.stepColumns cs r = some (cs', r') ∧ ∀ c ∈ cs', c.Inv := by
  intro cs
  induction cs with
  | nil => exact fun r _ => ⟨[], r, rfl, by simp⟩
  | cons c cs ih =>
    intro r h
    obtain ⟨c1, r1, hs, h1, -, -⟩ := Column.step_inv c r (h c (by simp))
    obtain ⟨cs1, r2, hsc, h2⟩ := ih r1 (fun x hx => h x (by simp [hx]))
    refine ⟨c1 :: cs1, r2, by simp [MatrixWaterfall.stepColumns, hs, hsc], ?_⟩
    intro x hx
    rcases List.mem_cons.mp hx with hx | hx
    · exact hx ▸ h1
    · exact h2 x hx

/-- One `MatrixWaterfall::step` over well-formed columns never faults. -/
theorem MatrixWaterfall.step_all_inv (w : MatrixWaterfall) (r : Rng)
    (h : ∀ c ∈ w.columns, c.Inv) :
    ∃ (w' : MatrixWaterfall) (r' : Rng), MatrixWaterfall.step w r = some (w', r')
      ∧ ∀ c ∈ w'.columns, c.Inv := by
  obtain ⟨cs', r', hsc, h'⟩ := MatrixWaterfall.stepColumns_inv w.columns r h
  exact ⟨⟨w.height, w.width, w.base_color, cs'⟩, r',
    by simp [MatrixWaterfall.step, hsc], h'⟩

/-- Any finite number of `MatrixWaterfall::step` calls over well-formed
columns never faults. -/
theorem MatrixWaterfall.runN_all_inv (n : ℕ) : ∀ (w : MatrixWaterfall) (r : Rng),
    (∀ c ∈ w.columns, c.Inv) →
    ∃ (w' : MatrixWaterfall) (r' : Rng), MatrixWaterfall.runN w r n = some (w', r')
      ∧ ∀ c ∈ w'.columns, c.Inv := by
  induction n with
  | zero => exact fun w r h => ⟨w, r, rfl, h⟩
  | succ n ih =>
    intro w r h
    obtain ⟨w1, r1, hs, h1⟩ := MatrixWaterfall.step_all_inv w r h
    obtain ⟨w2, r2, hrun, h2⟩ := ih w1 r1 h1
    exact ⟨w2, r2, by simp [MatrixWaterfall.runN, hs, hrun], h2⟩

/-! ## Claim theorems -/

/-- C1: the claimed ±1-per-channel round trip `to_rgb(to_hsl(c))` fails.
`from_rgb`'s `(r, b, g)` parameter order makes the HSL→RGB conversion
swap the green and blue channels: pure green round-trips to pure blue
(a 255 error on two channels).  The achromatic path fails as well: the
early return of `as_hsl` forgets the ×100 scaling, so white round-trips
to near-black `(3,3,3)`. -/
theorem roundtrip_green_yields_blue :
    Color.fromHsl (Color.as_hsl (Color.from_rgba 0 255 0 255)) = Color.from_rgba 0 0 255 255
    ∧ Color.fromHsl (Color.as_hsl (Color.from_rgba 255 255 255 255)) =
        Color.from_rgba 3 3 3 255 := by
  constructor
  · norm_num [Color.as_hsl, HslColor.new, max_def, min_def, Color.fromHsl, hue_to_rgb,
      roundToU8, roundHalfAway, Color.from_rgb, Color.from_rgba] <;> decide
  · norm_num [Color.as_hsl, HslColor.new, max_def, min_def, Color.fromHsl, hue_to_rgb,
      roundToU8, roundHalfAway, Color.from_rgb, Color.from_rgba] <;> decide

/-- C2: `fade_color` does not preserve hue.  Fading a pure green glyph
(hue 120) produces the color `(20, 20, 184)` (hue 240): the conversion
back to RGB swaps the green and blue channels via `from_rgb`.  The
character is indeed unchanged, but the claimed hue invariance fails. -/
theorem fade_changes_hue_of_green :
    Glyph.fade_color (Glyph.new 'A' (Color.from_rgba 0 255 0 255)) =
        Glyph.new 'A' (Color.from_rgba 20 20 184 255)
    ∧ (Color.as_hsl (Color.from_rgba 0 255 0 255)).h = 120
    ∧ (Color.as_hsl (Color.from_rgba 20 20 184 255)).h = 240 := by
  refine ⟨?_, ?_, ?_⟩
  · norm_num [Glyph.fade_color, Glyph.new, Color.as_hsl, HslColor.new, max_def, min_def,
      Color.fromHsl, hue_to_rgb, roundToU8, roundHalfAway,
      Color.from_rgb, Color.from_rgba] <;> decide
  · norm_num [Color.as_hsl, HslColor.new, max_def, min_def, Color.from_rgba]
  · norm_num [Color.as_hsl, HslColor.new, max_def, min_def, Color.from_rgba]

/-- C3: `from_rgb(x, y, z)` does NOT equal `from_rgba(x, y, z, 255)`:
its parameter list is `(r, b, g)`, so the second positional argument
lands in the blue channel and the third in the green channel. -/
theorem from_rgb_swaps_g_b :
    Color.from_rgb 0 1 2 = Color.from_rgba 0 2 1 255
    ∧ Color.from_rgb 0 1 2 ≠ Color.from_rgba 0 1 2 255 := by
  constructor
  · rfl
  · decide

/-- C4: the achromatic early return of `as_hsl` yields hue 0 and
saturation 0 as claimed, but returns the lightness UNSCALED (in `[0,1]`
instead of `[0,100]`): pure white gets lightness 1, not 100. -/
theorem as_hsl_achromatic_lightness_unscaled :
    Color.as_hsl (Color.from_rgba 255 255 255 255) = HslColor.new 0 0 1
    ∧ (Color.as_hsl (Color.from_rgba 255 255 255 255)).l ≠ 100 := by
  have h : Color.as_hsl (Color.from_rgba 255 255 255 255) = HslColor.new 0 0 1 := by
    norm_num [Color.as_hsl, HslColor.new, Color.from_rgba]
  refine ⟨h, ?_⟩
  rw [h]
  norm_num [HslColor.new]

/-- C5: on every proceeding tick (`active_index ≠ 0`, or the gate draw
at most 0.1) of a well-formed column, `Column::step` fades every glyph,
then overwrites the glyph at `active_index` with a freshly spawned
glyph whose character belongs to the fixed alphabet and whose color is
exactly the column's `base_color`, then advances `active_index` by one
modulo `height`. -/
theorem step_proceeding_spawns_and_advances (c : Column) (r : Rng)
    (hlen : c.glyphs.length = c.height) (hai : c.active_index < c.height)
    (hgate : c.active_index ≠ 0 ∨ (r.genFloat).1 ≤ 1/10) :
    ∃ (g : Glyph) (r' : Rng),
      c.step r = some (⟨c.height, c.base_color,
          (c.glyphs.map Glyph.fade_color).set c.active_index g,
          (c.active_index + 1) % c.height⟩, r')
      ∧ g.character ∈ characters.toList ∧ g.color = c.base_color := by
  have hai2 : c.active_index < c.glyphs.length := hlen ▸ hai
  have hwrap := wrap_eq_mod c.active_index c.height hai
  by_cases h0 : c.active_index = 0
  · have hle : (r.genFloat).1 ≤ 1/10 := by
      rcases hgate with h | h
      · exact absurd h0 h
      · exact h
    obtain ⟨g, hp, hmem, hcol⟩ := Column.proceed_spec c (r.genFloat).2 hai2
    refine ⟨g, ⟨(r.genFloat).2.floats, (r.genFloat).2.nats.tail⟩, ?_, hmem, hcol⟩
    rw [Column.step_gate_passes c r h0 (not_lt.mpr hle), hp, hwrap]
  · obtain ⟨g, hp, hmem, hcol⟩ := Column.proceed_spec c r hai2
    refine ⟨g, ⟨r.floats, r.nats.tail⟩, ?_, hmem, hcol⟩
    rw [Column.step_no_gate c r h0, hp, hwrap]

/-- C5 witness: a column of height 3 fresh from `Column::new` with a
gate draw of 0 (which passes). -/
theorem step_proceeding_spawns_and_advances_witness :
    ∃ (g : Glyph) (r' : Rng),
      (Column.new 3 mainBaseColor).step ⟨[0], [5]⟩ =
        some (⟨(Column.new 3 mainBaseColor).height,
            (Column.new 3 mainBaseColor).base_color,
            ((Column.new 3 mainBaseColor).glyphs.map Glyph.fade_color).set
              (Column.new 3 mainBaseColor).active_index g,
            ((Column.new 3 mainBaseColor).active_index + 1) %
              (Column.new 3 mainBaseColor).height⟩, r')
      ∧ g.character ∈ characters.toList
      ∧ g.color = (Column.new 3 mainBaseColor).base_color :=
  step_proceeding_spawns_and_advances (Column.new 3 mainBaseColor) ⟨[0], [5]⟩
    (by norm_num [Column.new]) (by norm_num [Column.new])
    (Or.inr (by norm_num [Rng.genFloat]))

/-- C6: with `active_index = 0` and the gate draw above 0.1,
`Column::step` is a complete no-op on the column — every glyph's
character and color unchanged storage-identically, `active_index` still
0 (the column is returned as is; only the draw is consumed) — and with
`active_index ≠ 0` no gate draw is made (the float stream reaches the
fade/spawn path untouched and is still untouched in the result) and the
tick always proceeds. -/
theorem step_gate_noop_and_no_gate (c : Column) (r : Rng) :
    (c.active_index = 0 → (r.genFloat).1 > 1/10 → c.step r = some (c, (r.genFloat).2))
    ∧ (c.active_index ≠ 0 → c.step r = c.proceed r
        ∧ ∀ (c' : Column) (r' : Rng), c.proceed r = some (c', r') →
            r'.floats = r.floats) := by
  refine ⟨Column.step_gate_blocks c r, fun h0 => ⟨Column.step_no_gate c r h0, ?_⟩⟩
  exact fun c' r' h => Column.proceed_floats c r c' r' h

/-- C6 witness: the gate blocks at draw 1 (> 0.1) and the column comes
back bit-for-bit unchanged. -/
theorem step_gate_noop_and_no_gate_witness :
    (Column.new 3 mainBaseColor).step ⟨[1], [5]⟩ =
      some (Column.new 3 mainBaseColor, (Rng.genFloat ⟨[1], [5]⟩).2) :=
  (step_gate_noop_and_no_gate (Column.new 3 mainBaseColor) ⟨[1], [5]⟩).1 rfl
    (by norm_num [Rng.genFloat])

/-- C7 counterexample: `Column::new(0, …)` already violates the claimed
index invariant — with `height = 0` the interval `[0, height)` is
empty, yet `active_index` is 0 (and the empty sequence of steps is a
finite sequence of steps). -/
theorem column_new_height_zero_index_out_of_range :
    ¬ ((Column.new 0 mainBaseColor).active_index <
        (Column.new 0 mainBaseColor).height) := by
  simp [Column.new]

/-- C7 (amended): for every column built by `Column::new` with positive
height, any finite sequence of `step` calls never faults and ends with
`glyphs.length = height` and `active_index ∈ [0, height)`; moreover a
proceeding step taken at `active_index = height − 1` (the step that
writes the last cell) wraps `active_index` to 0. -/
theorem column_invariants_hold_pos_height (height : ℕ) (col : Color) (hpos : 0 < height)
    (n : ℕ) (r : Rng) :
    (∃ (c' : Column) (r' : Rng),
        Column.runN (Column.new height col) r n = some (c', r')
          ∧ c'.glyphs.length = height ∧ c'.active_index < height)
    ∧ ∀ (c : Column) (r0 : Rng) (c' : Column) (r0' : Rng),
        c.active_index + 1 = c.height → c.proceed r0 = some (c', r0') →
        c'.active_index = 0 := by
  constructor
  · obtain ⟨c', r', hrun, hinv, hh⟩ := Column.runN_inv n (Column.new height col) r
      (Column.new_inv height col hpos)
    have hh2 : c'.height = height := hh
    exact ⟨c', r', hrun, hh2 ▸ hinv.1, hh2 ▸ hinv.2⟩
  · intro c r0 c' r0' hlast hp
    rw [Column.proceed_active_index c r0 c' r0' hp, if_pos (by omega)]

/-- C7 witness: two steps of a fresh column of height 3. -/
theorem column_invariants_hold_pos_height_witness :
    (∃ (c' : Column) (r' : Rng),
        Column.runN (Column.new 3 mainBaseColor) ⟨[0], [0]⟩ 2 = some (c', r')
          ∧ c'.glyphs.length = 3 ∧ c'.active_index < 3)
    ∧ ∀ (c : Column) (r0 : Rng) (c' : Column) (r0' : Rng),
        c.active_index + 1 = c.height → c.proceed r0 = some (c', r0') →
        c'.active_index = 0 :=
  column_invariants_hold_pos_height 3 mainBaseColor (by norm_num) 2 ⟨[0], [0]⟩

/-- C8 counterexample: with height 0 — which the claim explicitly
allows — the very first step faults: the gate draw 0 passes (0 ≤ 0.1)
and the spawn writes `glyphs[0]` into an empty vector, the modelled
index-out-of-bounds panic. -/
theorem waterfall_step_height_zero_faults :
    MatrixWaterfall.step (MatrixWaterfall.new 1 0 mainBaseColor) ⟨[0], [0]⟩ = none := by
  have h1 : (Column.new 0 mainBaseColor).step ⟨[0], [0]⟩ = none := by
    rw [Column.step_gate_passes _ _ rfl (by norm_num [Rng.genFloat])]
    exact Column.proceed_oob _ _ (by simp [Column.new])
  simp [MatrixWaterfall.step, MatrixWaterfall.new, MatrixWaterfall.stepColumns,
    List.replicate, h1]

/-- C8 (amended): for every waterfall `new(width, height, base_color)`
with positive height (any width, including zero), any finite number of
`step` calls never faults: every vector index the step chain performs is
in bounds, so the run always produces a state. -/
theorem waterfall_steps_never_fault_pos_height (w h : ℕ) (col : Color) (hpos : 0 < h)
    (n : ℕ) (r : Rng) :
    ∃ (w' : MatrixWaterfall) (r' : Rng),
      MatrixWaterfall.runN (MatrixWaterfall.new w h col) r n = some (w', r') := by
  have hinv : ∀ c ∈ (MatrixWaterfall.new w h col).columns, c.Inv := by
    intro c hc
    have hc2 : c = Column.new h col := List.eq_of_mem_replicate hc
    rw [hc2]
    exact Column.new_inv h col hpos
  obtain ⟨w', r', hrun, -⟩ := MatrixWaterfall.runN_all_inv n (MatrixWaterfall.new w h col) r hinv
  exact ⟨w', r', hrun⟩

/-- C8 witness: three faultless steps of a 2-column, height-1 waterfall. -/
theorem waterfall_steps_never_fault_pos_height_witness :
    ∃ (w' : MatrixWaterfall) (r' : Rng),
      MatrixWaterfall.runN (MatrixWaterfall.new 2 1 mainBaseColor) ⟨[0], [0]⟩ 3 =
        some (w', r') :=
  waterfall_steps_never_fault_pos_height 2 1 mainBaseColor (by norm_num) 3 ⟨[0], [0]⟩

/-- C9: `MatrixWaterfall::step` is a pure function of the waterfall
state and the random stream — two runs from equal initial states
consuming equal streams produce bit-for-bit equal results — and it
steps the columns left to right, feeding the generator state left by
one column into the next through the chain. -/
theorem waterfall_step_deterministic_chain :
    (∀ (w1 w2 : MatrixWaterfall) (r1 r2 : Rng), w1 = w2 → r1 = r2 →
       MatrixWaterfall.step w1 r1 = MatrixWaterfall.step w2 r2)
    ∧ (∀ (c : Column) (cs : List Column) (r : Rng),
       MatrixWaterfall.stepColumns (c :: cs) r =
         (c.step r).bind fun p =>
           (MatrixWaterfall.stepColumns cs p.2).bind fun q =>
             some (p.1 :: q.1, q.2)) := by
  constructor
  · intro w1 w2 r1 r2 h1 h2
    rw [h1, h2]
  · intro c cs r
    cases hs : c.step r with
    | none => simp [MatrixWaterfall.stepColumns, hs]
    | some p =>
      cases hq : MatrixWaterfall.stepColumns cs p.2 with
      | none => simp [MatrixWaterfall.stepColumns, hs, hq]
      | some q => simp [MatrixWaterfall.stepColumns, hs, hq]

/-- C9 witness: the two identical runs at a concrete state and stream. -/
theorem waterfall_step_deterministic_chain_witness :
    MatrixWaterfall.step (MatrixWaterfall.new 2 3 mainBaseColor) ⟨[0, 1], [4, 9]⟩ =
      MatrixWaterfall.step (MatrixWaterfall.new 2 3 mainBaseColor) ⟨[0, 1], [4, 9]⟩ :=
  waterfall_step_deterministic_chain.1 (MatrixWaterfall.new 2 3 mainBaseColor)
    (MatrixWaterfall.new 2 3 mainBaseColor) ⟨[0, 1], [4, 9]⟩ ⟨[0, 1], [4, 9]⟩ rfl rfl

/-- C10: fading the empty glyph (space, rgba(0,0,0,0)) replaces its
color with rgba(0,0,0,255) — the alpha jumps from 0 to 255 — and, the
base colors this program builds all carrying alpha 255, after any
proceeding `Column::step` (i.e. any successful `proceed`) no glyph of
the column has alpha 0: the faded glyphs get alpha 255 from the
conversion and the spawned head carries the base color. -/
theorem fade_destroys_alpha_sentinel :
    Glyph.fade_color Glyph.empty = ⟨' ', Color.from_rgba 0 0 0 255⟩
    ∧ ∀ (c : Column) (r : Rng) (c' : Column) (r' : Rng), c.base_color.a = 255 →
        c.proceed r = some (c', r') → ∀ g ∈ c'.glyphs, g.color.a ≠ 0 := by
  constructor
  · norm_num [Glyph.fade_color, Glyph.empty, Color.as_hsl, HslColor.new,
      Color.fromHsl, roundToU8, roundHalfAway, Color.from_rgb, Color.from_rgba]
  · intro c r c' r' hbase hp g hg
    by_cases hai : c.active_index < c.glyphs.length
    · obtain ⟨g0, hps, -, hcol⟩ := Column.proceed_spec c r hai
      rw [hps] at hp
      simp only [Option.some.injEq, Prod.mk.injEq] at hp
      have hglyphs : c'.glyphs =
          (c.glyphs.map Glyph.fade_color).set c.active_index g0 := by
        rw [← hp.1]
      rw [hglyphs] at hg
      rcases List.mem_or_eq_of_mem_set hg with hmem | heq
      · obtain ⟨g1, -, hg1⟩ := List.mem_map.mp hmem
        rw [← hg1, Glyph.fade_color_a]
        norm_num
      · rw [heq, hcol, hbase]
        norm_num
    · rw [Column.proceed_oob c r hai] at hp
      exact absurd hp (by simp)

/-- C10 witness: a concrete proceeding step of a height-1 column with
the program's base color; the resulting single glyph has alpha 255. -/
theorem fade_destroys_alpha_sentinel_witness :
    Glyph.fade_color Glyph.empty = ⟨' ', Color.from_rgba 0 0 0 255⟩
    ∧ ∀ g ∈ [Glyph.new 'ﾊ' mainBaseColor], g.color.a ≠ 0 :=
  ⟨fade_destroys_alpha_sentinel.1,
    fade_destroys_alpha_sentinel.2 (Column.new 1 mainBaseColor) ⟨[], [0]⟩
      ⟨1, mainBaseColor, [Glyph.new 'ﾊ' mainBaseColor], 0⟩ ⟨[], []⟩ rfl rfl⟩
